import Mathlib

/-!
Verification of the relay core of the uPic auto-uploader plugin.

The plugin intercepts image assets in the editor, stages them to a temp
file, invokes the external uPic command-line tool, parses the tool's
output for a URL and rewrites the document reference.

This development is a shallow embedding of the relevant TypeScript
functions.  JavaScript strings are modeled as `List Char`; `Map`/`Set`
objects as association lists / membership lists; the file system, the
process table and child-process execution as explicit environment
records, so that every function is a pure, executable Lean definition
mirroring the control flow of the source.
-/

namespace UPic

/-- JavaScript strings are modeled as lists of characters. -/
abbrev Str := List Char

/-- Coerce a Lean string literal into the model representation. -/
def str (s : String) : Str := s.toList

/-! ## Task deduplication (`processImageFile`, main plugin file)

The paste handler computes a fingerprint
`${file.name}-${file.size}-${file.lastModified}`, rejects the call when
the fingerprint is already in the in-flight set `processingFiles`,
otherwise inserts it and runs the body (staging, upload, patching).  The
whole function body — including the desktop-guard `return` and the
duplicate-skip `return` — sits inside one `try` whose `finally` block
deletes the fingerprint, so the delete runs on every exit path, the
skip paths included. -/

/-- Fingerprint of a file: `${file.name}-${file.size}-${file.lastModified}`. -/
def fileIdOf (name : Str) (size lastModified : Nat) : Str :=
  name ++ str "-" ++ str (toString size) ++ str "-" ++ str (toString lastModified)

/-- JS `Set.add`: insert if not present. -/
def setAdd (s : List Str) (x : Str) : List Str := if x ∈ s then s else x :: s

/-- JS `Set.delete`: remove the element. -/
def setDelete (s : List Str) (x : Str) : List Str := s.filter (fun y => y ≠ x)

/-- Outcome of the body of `processImageFile` (staging + upload + patching):
either it runs to completion or some step throws. -/
inductive BodyOutcome where
  | completed : BodyOutcome
  | threw : BodyOutcome

/-- Deduplication skeleton of `processImageFile`: the desktop guard, the
guard on `processingFiles`, the `add`, and the `finally` deleting the
fingerprint (the `catch` swallows exceptions, so the function returns
normally either way).  The guards' early `return`s are inside the `try`,
so the `finally` delete runs on those paths as well — in particular a
rejected duplicate removes the fingerprint the in-flight task had
recorded.  Returns the new in-flight set and whether processing was begun
(false = skipped). -/
def processImageFile (isDesktop : Bool) (processingFiles : List Str)
    (name : Str) (size lastModified : Nat) (body : BodyOutcome) :
    List Str × Bool :=
  let fileId := fileIdOf name size lastModified
  if isDesktop = false then
    (setDelete processingFiles fileId, false)
  else if fileId ∈ processingFiles then
    (setDelete processingFiles fileId, false)
  else
    let s1 := setAdd processingFiles fileId
    match body with
    | .completed => (setDelete s1 fileId, true)
    | .threw => (setDelete s1 fileId, true)

/-! ## Availability cache (`UPicUploader`, settings-manager.ts) -/

/-- `private cacheTimeout: number = 600000` (10 minutes). -/
def cacheTimeout : Nat := 600000

structure CacheEntry where
  available : Bool
  timestamp : Nat
deriving DecidableEq, Repr

/-- The `availabilityCache : Map<string, {available, timestamp}>`. -/
abbrev AvailCache := List (Str × CacheEntry)

/-- `Map.get`. -/
def cacheFind (c : AvailCache) (path : Str) : Option CacheEntry :=
  (c.find? (fun e => decide (e.1 = path))).map (fun e => e.2)

/-- `Map.delete`. -/
def cacheDelete (c : AvailCache) (path : Str) : AvailCache :=
  c.filter (fun e => decide (e.1 ≠ path))

/-- `setCachedAvailability`: `Map.set` with a fresh timestamp. -/
def setCachedAvailability (c : AvailCache) (path : Str) (available : Bool)
    (now : Nat) : AvailCache :=
  cacheDelete c path ++ [(path, ⟨available, now⟩)]

/-- `getCachedAvailability` (enhanced version): positive entries get a
doubled window (`cacheTimeout * 2`), an entry read past its window is
deleted and reported absent. -/
def getCachedAvailability (c : AvailCache) (path : Str) (now : Nat) :
    Option Bool × AvailCache :=
  match cacheFind c path with
  | none => (none, c)
  | some e =>
    let effectiveTimeout := if e.available then cacheTimeout * 2 else cacheTimeout
    if now - e.timestamp > effectiveTimeout then
      (none, cacheDelete c path)
    else
      (some e.available, c)

/-! ## Temp-file staging (`createTempFile`, main plugin file) -/

/-- Model of `path.join(dir, file)` for an already-normalized directory. -/
def joinPath (dir file : Str) : Str :=
  if dir.getLast? = some '/' then dir ++ file else dir ++ '/' :: file

/-- Index of the last occurrence of a character (JS `lastIndexOf`,
`none` standing for -1). -/
def lastIndexOfChar (c : Char) : Str → Option Nat
  | [] => none
  | d :: t =>
    match lastIndexOfChar c t with
    | some i => some (i + 1)
    | none => if d = c then some 0 else none

/-- Environment for `createTempFile`: `os.tmpdir()`, `fs.access`
(does a file exist at the path), `Date.now()`. -/
structure TempEnv where
  tmpDir : Str
  fsExists : Str → Bool
  now : Nat

/-- `createTempFile`: write the buffer to `tmpdir/fileName`; if a file of
that name already exists, insert `_${Date.now()}` before the extension
(`substring(0, lastIndexOf('.'))` / `substring(lastIndexOf('.'))`, with
the JS clamping of -1).  The byte buffer is written unchanged to the
returned path; only the path computation is modeled. -/
def createTempFile (env : TempEnv) (fileName : Str) : Str :=
  let tempFilePath := joinPath env.tmpDir fileName
  if env.fsExists tempFilePath then
    let nameWithoutExt :=
      match lastIndexOfChar '.' fileName with
      | none => ([] : Str)
      | some i => fileName.take i
    let extension :=
      match lastIndexOfChar '.' fileName with
      | none => fileName
      | some i => fileName.drop i
    let fileName2 := nameWithoutExt ++ '_' :: str (toString env.now) ++ extension
    joinPath env.tmpDir fileName2
  else
    tempFilePath

/-! ## Upload invocation (`uploadFile` / `parseUploadOutput`, settings-manager.ts) -/

/-- JS `t.includes(p)`: does `p` occur as a contiguous substring of `t`. -/
def jsIncludes (t p : Str) : Bool :=
  match t with
  | [] => p.isPrefixOf []
  | _ :: t' => p.isPrefixOf t || jsIncludes t' p

/-- JS whitespace (`\s`, and the set trimmed by `String.trim`), restricted
to the code points that can reach this plugin's command output. -/
def isJsSpace (c : Char) : Bool :=
  c = ' ' || c = '\t' || c = '\n' || c = '\r' || c = '\x0b' || c = '\x0c' || c = '\u00A0'

/-- JS `String.trim`. -/
def jsTrim (s : Str) : Str :=
  ((s.dropWhile isJsSpace).reverse.dropWhile isJsSpace).reverse

/-- One attempt of the regex `/(https?:\/\/[^\s]+)/` at the head of `t`:
the literal scheme (greedy optional `s`), then one or more non-space
characters. -/
def urlMatchAt (t : Str) : Option Str :=
  if (str "https://").isPrefixOf t then
    let w := (t.drop 8).takeWhile (fun c => !isJsSpace c)
    if w = [] then none else some (str "https://" ++ w)
  else if (str "http://").isPrefixOf t then
    let w := (t.drop 7).takeWhile (fun c => !isJsSpace c)
    if w = [] then none else some (str "http://" ++ w)
  else none

/-- First match of `output.match(/(https?:\/\/[^\s]+)/g)`: the leftmost
position where the pattern matches. -/
def findFirstUrl : Str → Option Str
  | [] => none
  | d :: t =>
    match urlMatchAt (d :: t) with
    | some u => some u
    | none => findFirstUrl t

/-- `parseUploadOutput`: reject empty / all-whitespace output; return the
first (trimmed) line of the trimmed output that starts with a scheme;
otherwise fall back to the first embedded URL found by the regex over the
whole output; otherwise `null`. -/
def parseUploadOutput (output : Str) : Option Str :=
  if output = [] ∨ jsTrim output = [] then none
  else
    match ((jsTrim output).splitOn '\n').find? (fun line =>
        (str "http://").isPrefixOf (jsTrim line)
          || (str "https://").isPrefixOf (jsTrim line)) with
    | some line => some (jsTrim line)
    | none => findFirstUrl output

/-- The upload-output parsing contract as the specification words it:
the first stdout line whose trimmed text begins with `http://` or
`https://`; failing that, the first regex match of an embedded URL over
the entire output; failing that, no URL. -/
def parseUploadOutputSpec (output : Str) : Option Str :=
  match (((jsTrim output).splitOn '\n').map jsTrim).find? (fun l =>
      (str "http://").isPrefixOf l || (str "https://").isPrefixOf l) with
  | some l => some l
  | none => findFirstUrl output

/-- Result of `execAsync`: the promise resolves with stdout/stderr, or
rejects with an `Error` carrying a message, or rejects with a non-`Error`
value. -/
inductive ExecRes where
  | ok (stdout stderr : Str) : ExecRes
  | errObj (message : Str) : ExecRes
  | thrownNonError : ExecRes

/-- The shell command `uploadFile` builds: the tool path (quoted when it
contains a space), `-u "<filePath>" -o url`. -/
def buildUploadCommand (upicPath filePath : Str) : Str :=
  if ' ' ∈ upicPath then
    '"' :: upicPath ++ str "\" -u \"" ++ filePath ++ str "\" -o url"
  else
    upicPath ++ str " -u \"" ++ filePath ++ str "\" -o url"

/-- `interface UploadResult` (types.ts). -/
structure UploadResult where
  success : Bool
  url : Option Str
  error : Option Str
  originalPath : Option Str
deriving DecidableEq, Repr

def timeoutErrorMsg : Str := str "Upload timeout - please check your network connection"
def enoentErrorMsg : Str := str "uPic application not found - please check the path in settings"
def unknownErrorMsg : Str := str "Unknown upload error"
def unparsableOutputMsg : Str := str "Failed to parse upload URL from uPic output"
def desktopOnlyMsg : Str := str "File upload is only available on desktop platforms"
def troubleshootingSuffix : Str :=
  str "\n\nTroubleshooting:\n1. Make sure uPic is installed\n2. Check if uPic path is correct in settings\n3. Try running uPic manually to verify it works"

/-- Environment of one `uploadFile` call: `Platform.isDesktop`, the
result of `getAvailableUPicPath`, the message `checkUPicAvailability`
would report, and the outcome of `execAsync` per command. -/
structure UploadEnv where
  isDesktop : Bool
  availablePath : Option Str
  availabilityMessage : Str
  exec : Str → ExecRes

/-- `uploadFile`: desktop guard, tool-path guard, shell invocation, URL
parsing, and the `catch`-block classification of thrown errors (timeout,
ENOENT, anything else verbatim; non-`Error` values become the generic
message).  Every branch produces an `UploadResult`. -/
def uploadFile (env : UploadEnv) (filePath : Str) : UploadResult :=
  if env.isDesktop = false then
    ⟨false, none, some desktopOnlyMsg, some filePath⟩
  else
    match env.availablePath with
    | none =>
      ⟨false, none,
        some (str "uPic is not available. " ++ env.availabilityMessage
          ++ troubleshootingSuffix), some filePath⟩
    | some upicPath =>
      match env.exec (buildUploadCommand upicPath filePath) with
      | .ok stdout _ =>
        match parseUploadOutput stdout with
        | none => ⟨false, none, some unparsableOutputMsg, some filePath⟩
        | some url => ⟨true, some url, none, some filePath⟩
      | .errObj message =>
        let errorMessage :=
          if jsIncludes message (str "timeout") then timeoutErrorMsg
          else if jsIncludes message (str "ENOENT") then enoentErrorMsg
          else message
        ⟨false, none, some errorMessage, some filePath⟩
      | .thrownNonError =>
        ⟨false, none, some unknownErrorMsg, some filePath⟩

/-! ## Theorems: claims C1, C6, C7 -/

theorem setDelete_not_mem (s : List Str) (x : Str) (h : x ∉ s) :
    setDelete s x = s := by
  unfold setDelete
  apply List.filter_eq_self.mpr
  intro y hy
  simp only [decide_eq_true_eq]
  intro hEq
  exact h (hEq ▸ hy)

/-- Claim C1 (code bug): because the duplicate-skip `return` sits inside
the `try`, the `finally` also runs on a rejected duplicate and deletes
the in-flight fingerprint.  Concretely: a first begin from the empty set
succeeds and, on its own, releases exactly once — for a completed and a
throwing body alike; but while that first task is in flight, a rejected
duplicate call empties the in-flight set instead of leaving it unchanged,
after which a third begin succeeds although the first task has not
finished — the claimed begin-once-until-the-matching-end invariant fails
on the program. -/
theorem processImageFile_dedup_bug :
    (processImageFile true [] (str "a.png") 3 7 .completed = ([], true) ∧
     processImageFile true [] (str "a.png") 3 7 .threw = ([], true)) ∧
    processImageFile true [fileIdOf (str "a.png") 3 7] (str "a.png") 3 7
        .completed
      = ([], false) ∧
    (processImageFile true [] (str "a.png") 3 7 .completed).2 = true := by
  refine ⟨⟨by decide, by decide⟩, by decide, rfl⟩

theorem cacheFind_delete (c : AvailCache) (p : Str) :
    cacheFind (cacheDelete c p) p = none := by
  unfold cacheFind cacheDelete
  induction c with
  | nil => rfl
  | cons a t ih =>
    by_cases h : a.1 = p
    · simpa [List.filter_cons, h] using ih
    · simpa [List.filter_cons, h, List.find?] using ih

/-- C6 counterexample: a negative (available = false) entry that is
599999 ms ≈ 10 minutes old — far beyond any "tens of seconds" window —
is still returned from the cache, refuting the claimed short negative
TTL. -/
theorem getCachedAvailability_negative_long_lived :
    (getCachedAvailability [(str "u", ⟨false, 0⟩)] (str "u") 599999).1
       = some false ∧ 99000 < 599999 - 0 := by
  constructor
  · rfl
  · decide

/-- Claim C6 (amended): a cached entry is returned while its age is at
most the effective window — `cacheTimeout * 2` = 1200000 ms (20 minutes)
for a positive entry, `cacheTimeout` = 600000 ms (10 minutes) for a
negative entry — the positive window being strictly longer; an entry read
after its window is purged from the cache and reported absent. -/
theorem getCachedAvailability_windows (c : AvailCache) (path : Str)
    (e : CacheEntry) (now : Nat) (h : cacheFind c path = some e) :
    ((getCachedAvailability c path now).1 = some e.available ↔
      now - e.timestamp ≤ (if e.available then 1200000 else 600000)) ∧
    (now - e.timestamp > (if e.available then 1200000 else 600000) →
      getCachedAvailability c path now = (none, cacheDelete c path) ∧
      cacheFind (cacheDelete c path) path = none) ∧
    (600000 : Nat) < 1200000 := by
  have hTimeout : (if e.available then cacheTimeout * 2 else cacheTimeout)
      = (if e.available then 1200000 else 600000) := by
    cases e.available <;> rfl
  refine ⟨?_, ?_, by decide⟩
  · unfold getCachedAvailability
    rw [h]
    simp only [hTimeout]
    by_cases hexp : now - e.timestamp > (if e.available then 1200000 else 600000)
    · rw [if_pos hexp]
      simp only [gt_iff_lt] at hexp
      constructor
      · intro hcontr
        exact absurd hcontr (by simp)
      · intro hle
        omega
    · rw [if_neg hexp]
      simp only [gt_iff_lt, not_lt] at hexp
      exact ⟨fun _ => hexp, fun _ => rfl⟩
  · intro hexp
    refine ⟨?_, cacheFind_delete c path⟩
    unfold getCachedAvailability
    rw [h]
    simp only [hTimeout]
    rw [if_pos hexp]

/-- Witness for C6 (amended) at a concrete cache. -/
theorem getCachedAvailability_windows_witness :
    (getCachedAvailability [(str "u", ⟨true, 0⟩)] (str "u") 1200001).1 = none := by
  have h := (getCachedAvailability_windows [(str "u", ⟨true, 0⟩)] (str "u")
    ⟨true, 0⟩ 1200001 (by rfl)).2.1 (by decide)
  rw [h.1]

theorem joinPath_len (dir a : Str) :
    (joinPath dir a).length =
      (if dir.getLast? = some '/' then dir.length + a.length
       else dir.length + a.length + 1) := by
  unfold joinPath
  by_cases h : dir.getLast? = some '/' <;> simp [h] <;> omega

/-- Claim C7: staging writes under the suggested name when no file of
that name exists in the temp directory; when one exists, a `_${Date.now()}`
disambiguator is inserted before the extension (the part from the last
dot), the suggested name splitting exactly as stem ++ extension, and the
resulting path differs from the existing file's path (no overwrite). -/
theorem createTempFile_spec (env : TempEnv) (fileName : Str) :
    (env.fsExists (joinPath env.tmpDir fileName) = false →
      createTempFile env fileName = joinPath env.tmpDir fileName) ∧
    (∀ i, env.fsExists (joinPath env.tmpDir fileName) = true →
      lastIndexOfChar '.' fileName = some i →
      createTempFile env fileName
        = joinPath env.tmpDir
            (fileName.take i ++ '_' :: str (toString env.now) ++ fileName.drop i) ∧
      fileName.take i ++ fileName.drop i = fileName ∧
      createTempFile env fileName ≠ joinPath env.tmpDir fileName) := by
  constructor
  · intro h
    unfold createTempFile
    simp [h]
  · intro i hex hidx
    have hval : createTempFile env fileName
        = joinPath env.tmpDir
            (fileName.take i ++ '_' :: str (toString env.now) ++ fileName.drop i) := by
      unfold createTempFile
      simp [hex, hidx]
    refine ⟨hval, List.take_append_drop i fileName, ?_⟩
    rw [hval]
    intro hcontr
    have hlen := congrArg List.length hcontr
    rw [joinPath_len, joinPath_len] at hlen
    have h1 : (fileName.take i ++ '_' :: str (toString env.now) ++ fileName.drop i).length
        = (fileName.take i).length + (1 + (str (toString env.now)).length
            + (fileName.drop i).length) := by
      simp [List.length_append]
      omega
    have h2 : (fileName.take i).length + (fileName.drop i).length = fileName.length := by
      rw [← List.length_append, List.take_append_drop]
    by_cases hd : env.tmpDir.getLast? = some '/'
    · rw [if_pos hd, if_pos hd] at hlen
      omega
    · rw [if_neg hd, if_neg hd] at hlen
      omega

/-! ## Theorems: claims C2, C9 -/

theorem allSpace_of_jsTrim_nil (s : Str) (h : jsTrim s = []) :
    ∀ c ∈ s, isJsSpace c = true := by
  intro c hc
  unfold jsTrim at h
  have h1 : (s.dropWhile isJsSpace).reverse.dropWhile isJsSpace = [] := by
    have := congrArg List.reverse h
    simpa using this
  have h2 : ∀ x ∈ (s.dropWhile isJsSpace).reverse, isJsSpace x = true :=
    List.dropWhile_eq_nil_iff.mp h1
  have h3 : ∀ x ∈ s.dropWhile isJsSpace, isJsSpace x = true := by
    intro x hx
    exact h2 x (List.mem_reverse.mpr hx)
  have hsplit : s = s.takeWhile isJsSpace ++ s.dropWhile isJsSpace :=
    (List.takeWhile_append_dropWhile (p := isJsSpace) (l := s)).symm
  rw [hsplit] at hc
  rcases List.mem_append.mp hc with hl | hr
  · exact List.mem_takeWhile_imp hl
  · exact h3 c hr

theorem urlMatchAt_none_of_space (d : Char) (t : Str)
    (hd : isJsSpace d = true) : urlMatchAt (d :: t) = none := by
  have hne : d ≠ 'h' := by
    intro he
    rw [he] at hd
    simp [isJsSpace] at hd
  unfold urlMatchAt
  have hp1 : (str "https://").isPrefixOf (d :: t) = false := by
    show List.isPrefixOf ('h' :: str "ttps://") (d :: t) = false
    simp [List.isPrefixOf]
    intro he
    exact absurd he.symm hne
  have hp2 : (str "http://").isPrefixOf (d :: t) = false := by
    show List.isPrefixOf ('h' :: str "ttp://") (d :: t) = false
    simp [List.isPrefixOf]
    intro he
    exact absurd he.symm hne
  rw [hp1, hp2]
  simp

theorem findFirstUrl_none_of_allSpace (s : Str)
    (h : ∀ c ∈ s, isJsSpace c = true) : findFirstUrl s = none := by
  induction s with
  | nil => rfl
  | cons d t ih =>
    unfold findFirstUrl
    rw [urlMatchAt_none_of_space d t (h d (by simp))]
    exact ih (fun c hc => h c (by simp [hc]))

theorem find?_map_eq (f : Str → Str) (l : List Str) (p : Str → Bool) :
    (l.map f).find? p = (l.find? (fun x => p (f x))).map f := by
  induction l with
  | nil => rfl
  | cons a t ih =>
    cases hpa : p (f a)
    · simp only [List.map_cons, List.find?, hpa]
      exact ih
    · simp [List.find?, hpa]

/-- Claim C2: `parseUploadOutput` realizes exactly the specified parsing
order — first scheme-starting line of stdout, else first embedded URL by
regex over the whole output, else no URL — and when no URL is discoverable
from a resolved (exit 0) invocation, `uploadFile` returns a failed result
with the unparsable-output error message instead of a URL. -/
theorem parseUploadOutput_contract :
    (∀ output, parseUploadOutput output = parseUploadOutputSpec output) ∧
    (∀ env upicPath filePath stdout stderr,
      env.isDesktop = true → env.availablePath = some upicPath →
      env.exec (buildUploadCommand upicPath filePath) = .ok stdout stderr →
      parseUploadOutput stdout = none →
      uploadFile env filePath
        = ⟨false, none, some unparsableOutputMsg, some filePath⟩) := by
  constructor
  · intro output
    by_cases h : output = [] ∨ jsTrim output = []
    · have hT : jsTrim output = [] := by
        rcases h with h | h
        · rw [h]; rfl
        · exact h
      have hImpl : parseUploadOutput output = none := by
        unfold parseUploadOutput
        rw [if_pos h]
      have hFind : ((((jsTrim output).splitOn '\n').map jsTrim).find? (fun l =>
          (str "http://").isPrefixOf l || (str "https://").isPrefixOf l)) = none := by
        rw [hT]
        rfl
      unfold parseUploadOutputSpec
      rw [hImpl, hFind]
      exact (findFirstUrl_none_of_allSpace output (allSpace_of_jsTrim_nil output hT)).symm
    · unfold parseUploadOutput parseUploadOutputSpec
      rw [if_neg h, find?_map_eq]
      cases hf : ((jsTrim output).splitOn '\n').find? (fun line =>
          (str "http://").isPrefixOf (jsTrim line)
            || (str "https://").isPrefixOf (jsTrim line)) with
      | none => rfl
      | some l => rfl
  · intro env upicPath filePath stdout stderr hDesk hPath hExec hParse
    simp [uploadFile, hDesk, hPath, hExec, hParse]

/-- Witness for C2: the tool exiting 0 with stdout `"done"` (no URL)
produces a failed `UploadResult` with the unparsable-output message. -/
theorem parseUploadOutput_contract_witness :
    uploadFile ⟨true, some (str "upic"), [], fun _ => .ok (str "done") []⟩
        (str "f.png")
      = ⟨false, none, some unparsableOutputMsg, some (str "f.png")⟩ :=
  parseUploadOutput_contract.2
    ⟨true, some (str "upic"), [], fun _ => .ok (str "done") []⟩
    (str "upic") (str "f.png") (str "done") [] rfl rfl rfl (by decide)

/-- C9 counterexample: an `execAsync` rejection carrying an `Error` whose
message is empty flows through the catch-block classification verbatim,
so `uploadFile` reports a failure whose error message is the empty
string — not a non-empty message as claimed. -/
theorem uploadFile_empty_error_message :
    (uploadFile ⟨true, some (str "upic"), [], fun _ => .errObj []⟩
        (str "f.png")).success = false ∧
    (uploadFile ⟨true, some (str "upic"), [], fun _ => .errObj []⟩
        (str "f.png")).error = some [] := by
  exact ⟨rfl, rfl⟩

/-- Claim C9 (amended): `uploadFile` is total — every input and every
execution outcome, including thrown errors, produces an `UploadResult`;
every failed result carries an error message; a thrown message containing
"timeout" is classified to the timeout message, otherwise one containing
"ENOENT" to the tool-not-found message, anything else is passed through
verbatim (and hence is non-empty exactly when the underlying message is);
a thrown non-`Error` value yields the generic message; and all fixed
messages are non-empty. -/
theorem uploadFile_error_paths (env : UploadEnv) (filePath : Str) :
    ((uploadFile env filePath).success = false →
      (uploadFile env filePath).error.isSome = true) ∧
    (∀ upicPath message, env.isDesktop = true →
      env.availablePath = some upicPath →
      env.exec (buildUploadCommand upicPath filePath) = .errObj message →
      ((jsIncludes message (str "timeout") = true →
          (uploadFile env filePath).error = some timeoutErrorMsg) ∧
       (jsIncludes message (str "timeout") = false →
          jsIncludes message (str "ENOENT") = true →
          (uploadFile env filePath).error = some enoentErrorMsg) ∧
       (jsIncludes message (str "timeout") = false →
          jsIncludes message (str "ENOENT") = false →
          (uploadFile env filePath).error = some message))) ∧
    (∀ upicPath, env.isDesktop = true →
      env.availablePath = some upicPath →
      env.exec (buildUploadCommand upicPath filePath) = .thrownNonError →
      (uploadFile env filePath).error = some unknownErrorMsg) ∧
    (timeoutErrorMsg ≠ [] ∧ enoentErrorMsg ≠ [] ∧ unknownErrorMsg ≠ [] ∧
      unparsableOutputMsg ≠ [] ∧ desktopOnlyMsg ≠ []) := by
  refine ⟨?_, ?_, ?_, by decide⟩
  · intro hFail
    rcases env with ⟨d, ap, am, ex⟩
    cases d
    · simp [uploadFile]
    · cases ap with
      | none => simp [uploadFile]
      | some p =>
        cases hE : ex (buildUploadCommand p filePath) with
        | ok out err =>
          cases hP : parseUploadOutput out with
          | none => simp [uploadFile, hE, hP]
          | some u =>
            exfalso
            simp [uploadFile, hE, hP] at hFail
        | errObj m => simp [uploadFile, hE]
        | thrownNonError => simp [uploadFile, hE]
  · intro upicPath message hDesk hPath hExec
    refine ⟨?_, ?_, ?_⟩
    · intro h1
      simp [uploadFile, hDesk, hPath, hExec, h1]
    · intro h1 h2
      simp [uploadFile, hDesk, hPath, hExec, h1, h2]
    · intro h1 h2
      simp [uploadFile, hDesk, hPath, hExec, h1, h2]
  · intro upicPath hDesk hPath hExec
    simp [uploadFile, hDesk, hPath, hExec]

/-- Witness for C9 (amended): a concrete ENOENT rejection is classified
to the tool-not-found message. -/
theorem uploadFile_error_paths_witness :
    (uploadFile ⟨true, some (str "upic"), [],
        fun _ => .errObj (str "spawn upic ENOENT")⟩ (str "f.png")).error
      = some enoentErrorMsg := by
  have h := (uploadFile_error_paths
    ⟨true, some (str "upic"), [], fun _ => .errObj (str "spawn upic ENOENT")⟩
    (str "f.png")).2.1 (str "upic") (str "spawn upic ENOENT") rfl rfl rfl
  exact h.2.1 (by decide) (by decide)

/-- Witness for C7: in a temp dir where `a.png` exists, staging `a.png`
at time 5 yields `/tmp/a_5.png`, which is distinct from `/tmp/a.png`;
with no collision the name is preserved. -/
theorem createTempFile_spec_witness :
    createTempFile ⟨str "/tmp", fun _ => true, 5⟩ (str "a.png")
        = joinPath (str "/tmp") (str "a_5.png") ∧
    createTempFile ⟨str "/tmp", fun _ => false, 5⟩ (str "a.png")
        = joinPath (str "/tmp") (str "a.png") := by
  constructor
  · have h := (createTempFile_spec ⟨str "/tmp", fun _ => true, 5⟩ (str "a.png")).2
      1 (by rfl) (by decide)
    rw [h.1]
    rfl
  · exact (createTempFile_spec ⟨str "/tmp", fun _ => false, 5⟩ (str "a.png")).1
      (by rfl)

/-! ## Tool locator (`testUPicPath` / `detectUPicPath` / `getAvailableUPicPath`,
settings-manager.ts) -/

/-- `expandPath`: expand a leading `~/` to the home directory via
`path.join(os.homedir(), path.slice(2))`. -/
def expandPath (home : Str) (p : Str) : Str :=
  if (str "~/").isPrefixOf p then joinPath home (p.drop 2) else p

/-- JS `toLowerCase` (ASCII range suffices for the probed outputs). -/
def jsToLower (s : Str) : Str := s.map Char.toLower

/-- The process-table probe `pgrep -f "uPic" | wc -l` run by
`isUPicProcessRunning` (the plugin targets macOS; the Windows `tasklist`
variant is not modeled). -/
def processCheckCommand : Str := str "pgrep -f \"uPic\" | wc -l"

/-- Environment of one `testUPicPath` call: clock, home directory, the
process-table probe outcome (`false` also covers a failing probe, which
the source catches and maps to `false`), file-system predicates and the
child-process runner. -/
structure TestEnv where
  now : Nat
  home : Str
  processRunning : Bool
  fileExists : Str → Bool
  isFile : Str → Bool
  accessOk : Str → Bool
  exec : Str → ExecRes

/-- Allow-list of keywords proving the probed binary is uPic. -/
def upicKeywords : List Str :=
  [str "upic", str "upload", str "image uploader",
   str "version", str "usage:", str "options:"]

/-- The inner-catch heuristic: a lowercased error message that names the
tool and looks like a usage/argument error (an explicit
`command not found` counts against it). -/
def isValidUpicError (errorMsg : Str) : Bool :=
  jsIncludes errorMsg (str "upic") &&
    (jsIncludes errorMsg (str "missing required options")
      || jsIncludes errorMsg (str "usage")
      || jsIncludes errorMsg (str "help")
      || !jsIncludes errorMsg (str "command not found"))

/-- Probe command for one flag, quoting a path that contains a space. -/
def buildTestCommand (expandedPath flag : Str) : Str :=
  if ' ' ∈ expandedPath then
    '"' :: expandedPath ++ '"' :: ' ' :: flag
  else
    expandedPath ++ ' ' :: flag

/-- Result of `testUPicPath`: the boolean outcome, the updated
availability cache, and the list of shell commands that were spawned. -/
structure TestOutcome where
  result : Bool
  cache : AvailCache
  spawned : List Str

/-- The `--version` / `--help` probe loop of `testUPicPath`, with the
keyword check on combined stdout+stderr and the error-message heuristic
of the inner catch (a thrown non-`Error`, or an `Error` with an empty or
unconvincing message, moves on to the next flag). -/
def testUPicPathFlags (cache : AvailCache) (env : TestEnv)
    (path expandedPath : Str) (spawned : List Str) :
    List Str → TestOutcome
  | [] => ⟨false, setCachedAvailability cache path false env.now, spawned⟩
  | flag :: rest =>
    let command := buildTestCommand expandedPath flag
    match env.exec command with
    | .ok stdout stderr =>
      if upicKeywords.any (fun k => jsIncludes (jsToLower (stdout ++ stderr)) k) then
        ⟨true, setCachedAvailability cache path true env.now, spawned ++ [command]⟩
      else
        testUPicPathFlags cache env path expandedPath (spawned ++ [command]) rest
    | .errObj message =>
      if message ≠ [] ∧ isValidUpicError (jsToLower message) = true then
        ⟨true, setCachedAvailability cache path true env.now, spawned ++ [command]⟩
      else
        testUPicPathFlags cache env path expandedPath (spawned ++ [command]) rest
    | .thrownNonError =>
      testUPicPathFlags cache env path expandedPath (spawned ++ [command]) rest

/-- `testUPicPath`: empty-path guard, cache lookup, the
already-running-process short-circuit (accept on trust, cache positively,
spawn nothing but the process probe), then existence / regular-file /
executability checks for slash-containing paths, then the flag probes. -/
def testUPicPath (cache : AvailCache) (env : TestEnv) (path : Str) :
    TestOutcome :=
  if path = [] then ⟨false, cache, []⟩
  else
    match getCachedAvailability cache path env.now with
    | (some b, cache') => ⟨b, cache', []⟩
    | (none, cache') =>
      if env.processRunning then
        ⟨true, setCachedAvailability cache' path true env.now, [processCheckCommand]⟩
      else
        let expandedPath := expandPath env.home path
        if '/' ∈ expandedPath ∧ env.fileExists expandedPath = false then
          ⟨false, setCachedAvailability cache' path false env.now, [processCheckCommand]⟩
        else if '/' ∈ expandedPath ∧
            (env.isFile expandedPath = false ∨ env.accessOk expandedPath = false) then
          ⟨false, setCachedAvailability cache' path false env.now, [processCheckCommand]⟩
        else
          testUPicPathFlags cache' env path expandedPath [processCheckCommand]
            [str "--version", str "--help"]

/-- Environment of `detectUPicPath`: the configured path, system facts,
and oracles for candidate testing (`testUPicPath`, of which only the
boolean outcome is consumed here) and for the OS lookup commands. -/
structure DetectEnv where
  upicPath : Str
  home : Str
  username : Str
  pathEnv : Str
  test : Str → Bool
  execCmd : Str → Option Str

/-- The hard-coded list of well-known installation paths, in source
order. -/
def commonPaths (username : Str) : List Str :=
  [str "/Applications/uPic.app/Contents/MacOS/uPic",
   str "/Applications/uPic.app/Contents/Resources/uPic",
   str "/System/Applications/uPic.app/Contents/MacOS/uPic",
   str "/usr/local/bin/upic",
   str "/opt/homebrew/bin/upic",
   str "/usr/bin/upic",
   str "/opt/local/bin/upic",
   str "~/Applications/uPic.app/Contents/MacOS/uPic",
   str "/Users/" ++ username ++ str "/Applications/uPic.app/Contents/MacOS/uPic"]

/-- The OS lookup commands, in source order. -/
def pathCommands : List Str :=
  [str "which upic", str "whereis upic", str "type -p upic"]

/-- One OS lookup: run the command, take the first line of trimmed
stdout, keep it only when non-empty and not the literal
`upic not found`; a throwing command yields no candidate. -/
def osLookupCandidate (env : DetectEnv) (cmd : Str) : Option Str :=
  match env.execCmd cmd with
  | none => none
  | some stdout =>
    let detectedPath := ((jsTrim stdout).splitOn '\n').headD []
    if detectedPath ≠ [] ∧ detectedPath ≠ str "upic not found" then
      some detectedPath
    else none

/-- The PATH directories: split on `:`, dropping whitespace-only
entries. -/
def pathDirs (env : DetectEnv) : List Str :=
  (env.pathEnv.splitOn ':').filter (fun d => jsTrim d ≠ [])

/-- Loop (2) of `detectUPicPath`: first well-known path that tests
positive (each expanded first). -/
def firstTestedCommon (env : DetectEnv) : List Str → Option Str
  | [] => none
  | p :: rest =>
    let expanded := expandPath env.home p
    if env.test expanded then some expanded else firstTestedCommon env rest

/-- Loop (3) of `detectUPicPath`: first OS-lookup result that tests
positive. -/
def firstTestedOs (env : DetectEnv) : List Str → Option Str
  | [] => none
  | cmd :: rest =>
    match osLookupCandidate env cmd with
    | some dp => if env.test dp then some dp else firstTestedOs env rest
    | none => firstTestedOs env rest

/-- Loop (4) of `detectUPicPath`: first PATH directory whose joined
`upic` tests positive. -/
def firstTestedPathDir (env : DetectEnv) : List Str → Option Str
  | [] => none
  | dir :: rest =>
    let cand := joinPath dir (str "upic")
    if env.test cand then some cand else firstTestedPathDir env rest

/-- `detectUPicPath`: user-configured path (expanded) first, then the
well-known paths, then the OS lookups, then the PATH scan; each stage
stops at the first candidate that tests positive and the result is a
singleton (or empty) list. -/
def detectUPicPath (env : DetectEnv) : List Str :=
  match
    (if env.upicPath ≠ [] ∧ jsTrim env.upicPath ≠ [] then
      (if env.test (expandPath env.home env.upicPath) then
        some (expandPath env.home env.upicPath)
      else none)
    else none) with
  | some p => [p]
  | none =>
    match firstTestedCommon env (commonPaths env.username) with
    | some p => [p]
    | none =>
      match firstTestedOs env pathCommands with
      | some p => [p]
      | none =>
        match firstTestedPathDir env (pathDirs env) with
        | some p => [p]
        | none => []

/-- The full ordered candidate sequence `detectUPicPath` probes. -/
def detectCandidates (env : DetectEnv) : List Str :=
  (if env.upicPath ≠ [] ∧ jsTrim env.upicPath ≠ [] then
    [expandPath env.home env.upicPath]
  else [])
  ++ (commonPaths env.username).map (expandPath env.home)
  ++ pathCommands.filterMap (osLookupCandidate env)
  ++ (pathDirs env).map (fun dir => joinPath dir (str "upic"))

/-- `getAvailableUPicPath`: short-circuit to the cached
`detectedUpicPath` when set; otherwise run discovery and adopt the first
detected path that tests positive.  Returns the resolved path, the new
`detectedUpicPath` field, and whether discovery ran. -/
def getAvailableUPicPath (detectedUpicPath : Option Str) (env : DetectEnv) :
    Option Str × Option Str × Bool :=
  match detectedUpicPath with
  | some p => (some p, some p, false)
  | none =>
    match (detectUPicPath env).find? env.test with
    | some p => (some p, some p, true)
    | none => (none, none, true)

/-! ## Theorems: claims C4, C10, C5 -/

theorem find?_append_none {α : Type} (p : α → Bool) (l₁ l₂ : List α)
    (h : l₁.find? p = none) : (l₁ ++ l₂).find? p = l₂.find? p := by
  induction l₁ with
  | nil => rfl
  | cons a t ih =>
    cases hpa : p a
    · simp only [List.find?, hpa] at h
      simp only [List.cons_append, List.find?, hpa]
      exact ih h
    · simp [List.find?, hpa] at h

theorem find?_append_match {α : Type} (p : α → Bool) (l₁ l₂ : List α) :
    (l₁ ++ l₂).find? p
      = match l₁.find? p with
        | some x => some x
        | none => l₂.find? p := by
  cases h : l₁.find? p with
  | none => exact find?_append_none p l₁ l₂ h
  | some x =>
    induction l₁ with
    | nil => simp [List.find?] at h
    | cons a t ih =>
      cases hpa : p a
      · simp only [List.find?, hpa] at h
        simp only [List.cons_append, List.find?, hpa]
        exact ih h
      · simp only [List.find?, hpa] at h
        simp only [List.cons_append, List.find?, hpa]
        exact h

theorem cacheFind_set (c : AvailCache) (p : Str) (b : Bool) (now : Nat) :
    cacheFind (setCachedAvailability c p b now) p = some ⟨b, now⟩ := by
  unfold setCachedAvailability cacheFind
  have hnone : (cacheDelete c p).find? (fun e => decide (e.1 = p)) = none := by
    have h := cacheFind_delete c p
    unfold cacheFind at h
    cases hf : (cacheDelete c p).find? (fun e => decide (e.1 = p)) with
    | none => rfl
    | some e =>
      rw [hf] at h
      simp at h
  rw [find?_append_none _ _ _ hnone]
  simp [List.find?]

/-- Shared computation lemma: on a cache miss with the uPic process
already running, `testUPicPath` accepts on trust, caches positively and
spawns only the process probe. -/
theorem testUPicPath_running_eq (cache : AvailCache) (env : TestEnv)
    (path : Str) (hne : path ≠ [])
    (hmiss : (getCachedAvailability cache path env.now).1 = none)
    (hrun : env.processRunning = true) :
    testUPicPath cache env path =
      ⟨true, setCachedAvailability (getCachedAvailability cache path env.now).2
          path true env.now, [processCheckCommand]⟩ := by
  unfold testUPicPath
  rw [if_neg hne]
  rcases hga : getCachedAvailability cache path env.now with ⟨o, c'⟩
  rw [hga] at hmiss
  cases o with
  | some b => simp at hmiss
  | none =>
    simp [hrun]

/-- C4 counterexample: a fresh negative cache entry is consulted before
the process check, so even while a uPic process is running (and the
candidate is non-empty) `testUPicPath` returns `false` — the claim's
unconditional acceptance does not hold. -/
theorem testUPicPath_cached_negative_blocks :
    (testUPicPath [(str "/x/upic", ⟨false, 1000⟩)]
        ⟨1000, str "/h", true, fun _ => false, fun _ => false, fun _ => false,
          fun _ => .thrownNonError⟩ (str "/x/upic")).result = false ∧
    (⟨1000, str "/h", true, fun _ => false, fun _ => false, fun _ => false,
        fun _ => .thrownNonError⟩ : TestEnv).processRunning = true ∧
    str "/x/upic" ≠ ([] : Str) := by
  refine ⟨by decide, rfl, by decide⟩

/-- Claim C4 (amended): for every non-empty candidate with no unexpired
cache entry, when a uPic process is already running at test time the
candidate is accepted on trust — `testUPicPath` returns `true`, caches
the candidate as available, and spawns only the process probe, never a
process invoking the candidate. -/
theorem testUPicPath_accepts_when_running (cache : AvailCache) (env : TestEnv)
    (path : Str) (hne : path ≠ [])
    (hmiss : (getCachedAvailability cache path env.now).1 = none)
    (hrun : env.processRunning = true) :
    (testUPicPath cache env path).result = true ∧
    cacheFind (testUPicPath cache env path).cache path = some ⟨true, env.now⟩ ∧
    (testUPicPath cache env path).spawned = [processCheckCommand] := by
  rw [testUPicPath_running_eq cache env path hne hmiss hrun]
  exact ⟨rfl, cacheFind_set _ _ _ _, rfl⟩

/-- Witness for C4 (amended) with an empty cache. -/
theorem testUPicPath_accepts_when_running_witness :
    (testUPicPath []
        ⟨5, str "/h", true, fun _ => false, fun _ => false, fun _ => false,
          fun _ => .thrownNonError⟩ (str "/x/upic")).result = true :=
  (testUPicPath_accepts_when_running []
    ⟨5, str "/h", true, fun _ => false, fun _ => false, fun _ => false,
      fun _ => .thrownNonError⟩ (str "/x/upic") (by decide) rfl rfl).1

/-- C10 counterexample: even with a uPic process running, a candidate
path that does not exist on disk is rejected when a fresh negative cache
entry for it exists, refuting the claim's "every non-empty candidate
string whatsoever". -/
theorem testUPicPath_bogus_cached_negative :
    (testUPicPath [(str "/no/such/upic", ⟨false, 400⟩)]
        ⟨400, str "/h", true, fun _ => false, fun _ => false, fun _ => false,
          fun _ => .thrownNonError⟩ (str "/no/such/upic")).result = false ∧
    (⟨400, str "/h", true, fun _ => false, fun _ => false, fun _ => false,
        fun _ => .thrownNonError⟩ : TestEnv).processRunning = true ∧
    (⟨400, str "/h", true, fun _ => false, fun _ => false, fun _ => false,
        fun _ => .thrownNonError⟩ : TestEnv).fileExists (str "/no/such/upic")
      = false := by
  refine ⟨by decide, rfl, rfl⟩

/-- Claim C10 (amended): on a cache miss, when a uPic process is running
the process check precedes and entirely skips the file-existence and
executability checks, so every non-empty candidate — in particular one
that does not exist on disk — is accepted, cached as available, and no
process invoking the candidate is spawned. -/
theorem testUPicPath_accepts_bogus_when_running (cache : AvailCache)
    (env : TestEnv) (path : Str) (hne : path ≠ [])
    (hmiss : (getCachedAvailability cache path env.now).1 = none)
    (hrun : env.processRunning = true)
    (hnofile : env.fileExists (expandPath env.home path) = false) :
    (testUPicPath cache env path).result = true ∧
    cacheFind (testUPicPath cache env path).cache path = some ⟨true, env.now⟩ ∧
    (testUPicPath cache env path).spawned = [processCheckCommand] := by
  rw [testUPicPath_running_eq cache env path hne hmiss hrun]
  exact ⟨rfl, cacheFind_set _ _ _ _, rfl⟩

/-- Witness for C10 (amended): an on-disk-nonexistent candidate accepted
while the process runs. -/
theorem testUPicPath_accepts_bogus_when_running_witness :
    (testUPicPath []
        ⟨7, str "/h", true, fun _ => false, fun _ => false, fun _ => false,
          fun _ => .thrownNonError⟩ (str "/ghost/upic")).result = true :=
  (testUPicPath_accepts_bogus_when_running []
    ⟨7, str "/h", true, fun _ => false, fun _ => false, fun _ => false,
      fun _ => .thrownNonError⟩ (str "/ghost/upic") (by decide) rfl rfl rfl).1

theorem firstTestedCommon_eq (env : DetectEnv) (l : List Str) :
    firstTestedCommon env l = (l.map (expandPath env.home)).find? env.test := by
  induction l with
  | nil => rfl
  | cons p rest ih =>
    unfold firstTestedCommon
    cases ht : env.test (expandPath env.home p)
    · simp only [List.map_cons, List.find?, ht]
      exact ih
    · simp [List.find?, ht]

theorem firstTestedOs_eq (env : DetectEnv) (cmds : List Str) :
    firstTestedOs env cmds
      = (cmds.filterMap (osLookupCandidate env)).find? env.test := by
  induction cmds with
  | nil => rfl
  | cons cmd rest ih =>
    unfold firstTestedOs
    cases hc : osLookupCandidate env cmd with
    | none =>
      simp only [List.filterMap_cons, hc]
      exact ih
    | some dp =>
      simp only [List.filterMap_cons, hc]
      cases ht : env.test dp
      · simp only [List.find?, ht]
        exact ih
      · simp [List.find?, ht]

theorem firstTestedPathDir_eq (env : DetectEnv) (dirs : List Str) :
    firstTestedPathDir env dirs
      = (dirs.map (fun dir => joinPath dir (str "upic"))).find? env.test := by
  induction dirs with
  | nil => rfl
  | cons dir rest ih =>
    unfold firstTestedPathDir
    cases ht : env.test (joinPath dir (str "upic"))
    · simp only [List.map_cons, List.find?, ht]
      exact ih
    · simp [List.find?, ht]

/-- Claim C5: tool discovery probes the candidates in the fixed order
user-configured path (expanded), well-known installation paths, OS lookup
results (first line each, filtered), PATH directories — returning the
first candidate that tests positive (`Option.toList` of the ordered
`find?`); and once a path is recorded, `getAvailableUPicPath`
short-circuits to it without running discovery. -/
theorem detectUPicPath_order (env : DetectEnv) :
    detectUPicPath env = ((detectCandidates env).find? env.test).toList ∧
    (∀ p, getAvailableUPicPath (some p) env = (some p, some p, false)) := by
  constructor
  · unfold detectUPicPath detectCandidates
    rw [find?_append_match, find?_append_match, find?_append_match,
      ← firstTestedCommon_eq, ← firstTestedOs_eq, ← firstTestedPathDir_eq]
    by_cases hu : env.upicPath ≠ [] ∧ jsTrim env.upicPath ≠ []
    · rw [if_pos hu, if_pos hu]
      cases ht : env.test (expandPath env.home env.upicPath)
      · simp only [List.find?, ht]
        cases h1 : firstTestedCommon env (commonPaths env.username)
        · cases h2 : firstTestedOs env pathCommands
          · cases h3 : firstTestedPathDir env (pathDirs env) <;> rfl
          · rfl
        · rfl
      · simp [List.find?, ht]
    · rw [if_neg hu, if_neg hu]
      simp only [List.find?]
      cases h1 : firstTestedCommon env (commonPaths env.username)
      · cases h2 : firstTestedOs env pathCommands
        · cases h3 : firstTestedPathDir env (pathDirs env) <;> rfl
        · rfl
      · rfl
  · intro p
    rfl

/-- Witness for C5: with only `/usr/bin/upic` testing positive and no
user-configured path, discovery returns exactly that well-known path, and
a later resolution short-circuits to the recorded path. -/
theorem detectUPicPath_order_witness :
    detectUPicPath
        ⟨[], str "/h", str "u", [], fun c => decide (c = str "/usr/bin/upic"),
          fun _ => none⟩
      = [str "/usr/bin/upic"] ∧
    getAvailableUPicPath (some (str "/usr/bin/upic"))
        ⟨[], str "/h", str "u", [], fun c => decide (c = str "/usr/bin/upic"),
          fun _ => none⟩
      = (some (str "/usr/bin/upic"), some (str "/usr/bin/upic"), false) := by
  constructor
  · rw [(detectUPicPath_order
      ⟨[], str "/h", str "u", [], fun c => decide (c = str "/usr/bin/upic"),
        fun _ => none⟩).1]
    decide
  · exact (detectUPicPath_order
      ⟨[], str "/h", str "u", [], fun c => decide (c = str "/usr/bin/upic"),
        fun _ => none⟩).2 (str "/usr/bin/upic")

/-! ## A small JS-regex engine

The patcher builds its regexes from template strings: literal characters,
escaped metacharacters, optionally negated character classes (possibly
under `*`), and capture groups whose captures are never used and that
carry no quantifier.  `new RegExp(src)` throws a `SyntaxError` on a
malformed source — notably on an unmatched `)` — which the parser models
by returning `none`.  Constructs outside this fragment are conservatively
rejected as well. -/

/-- Atom of the regex fragment: literal, character class, starred
character class.  The Boolean records negation (`[^…]`). -/
inductive RAtom where
  | lit : Char → RAtom
  | cls : Bool → List Char → RAtom
  | clsStar : Bool → List Char → RAtom
deriving DecidableEq, Repr

/-- Class body up to the closing `]`, resolving `\x` escapes (shorthand
classes such as `\s` are outside the fragment). -/
def parseClassChars : Nat → Str → Option (List Char × Str)
  | 0, _ => none
  | _ + 1, [] => none
  | fuel + 1, c :: rest =>
    if c = ']' then some ([], rest)
    else if c = '\\' then
      match rest with
      | [] => none
      | e :: rest' =>
        if e.isAlpha then none
        else
          match parseClassChars fuel rest' with
          | some (chars, rem) => some (e :: chars, rem)
          | none => none
    else
      match parseClassChars fuel rest with
      | some (chars, rem) => some (c :: chars, rem)
      | none => none

/-- Recursive-descent parser for the fragment, flattening balanced
unquantified groups and rejecting an unmatched `)` (the `SyntaxError`
case).  The second `Nat` is the current group depth. -/
def parseRegexAux : Nat → Str → Nat → Option (List RAtom × Str)
  | 0, _, _ => none
  | _ + 1, [], depth => if depth = 0 then some ([], []) else none
  | _ + 1, ')' :: rest, depth =>
    if depth = 0 then none else some ([], ')' :: rest)
  | fuel + 1, '(' :: rest, depth =>
    (match parseRegexAux fuel rest (depth + 1) with
    | none => none
    | some (inner, rem) =>
      match rem with
      | ')' :: rem' =>
        (match rem' with
        | '*' :: _ => none
        | '+' :: _ => none
        | '?' :: _ => none
        | _ =>
          match parseRegexAux fuel rem' depth with
          | none => none
          | some (more, rem'') => some (inner ++ more, rem''))
      | _ => none)
  | fuel + 1, '[' :: rest, depth =>
    (match (match rest with
            | '^' :: r => (true, r)
            | _ => (false, rest) : Bool × Str) with
    | (negated, body) =>
      match parseClassChars (body.length + 1) body with
      | none => none
      | some (chars, rem) =>
        match rem with
        | '*' :: rem' =>
          (match parseRegexAux fuel rem' depth with
          | none => none
          | some (more, rem'') => some (.clsStar negated chars :: more, rem''))
        | '+' :: _ => none
        | '?' :: _ => none
        | _ =>
          match parseRegexAux fuel rem depth with
          | none => none
          | some (more, rem'') => some (.cls negated chars :: more, rem''))
  | fuel + 1, '\\' :: rest, depth =>
    (match rest with
    | [] => none
    | e :: rest' =>
      if e.isAlpha then none
      else
        match rest' with
        | '*' :: _ => none
        | '+' :: _ => none
        | '?' :: _ => none
        | _ =>
          match parseRegexAux fuel rest' depth with
          | none => none
          | some (more, rem) => some (.lit e :: more, rem))
  | fuel + 1, c :: rest, depth =>
    if c = '*' ∨ c = '+' ∨ c = '?' ∨ c = '|' ∨ c = '.' ∨ c = '^' ∨ c = '$'
        ∨ c = '\x7b' ∨ c = '\x7d' then none
    else
      match rest with
      | '*' :: _ => none
      | '+' :: _ => none
      | '?' :: _ => none
      | _ =>
        match parseRegexAux fuel rest depth with
        | none => none
        | some (more, rem) => some (.lit c :: more, rem)

/-- `new RegExp(source)`: parse the whole source at depth 0, `none`
modeling a thrown `SyntaxError`. -/
def parseRegex (source : Str) : Option (List RAtom) :=
  match parseRegexAux (source.length + 1) source 0 with
  | some (atoms, []) => some atoms
  | _ => none

/-- Does one character match a (possibly negated) class. -/
def classMatch (negated : Bool) (chars : List Char) (d : Char) : Bool :=
  if negated then decide (d ∉ chars) else decide (d ∈ chars)

/-- All suffixes at which the atom sequence can stop matching from the
head of `t`, in the JS engine's backtracking order (greedy `*`, longest
first); the head of this list is the JS match. -/
def matchCands : List RAtom → Str → List Str
  | [], t => [t]
  | .lit _ :: _, [] => []
  | .lit c :: rest, d :: t => if d = c then matchCands rest t else []
  | .cls _ _ :: _, [] => []
  | .cls neg cs :: rest, d :: t =>
    if classMatch neg cs d then matchCands rest t else []
  | .clsStar neg cs :: rest, t =>
    let run := t.takeWhile (classMatch neg cs)
    ((List.range (run.length + 1)).map
      (fun i => t.drop (run.length - i))).flatMap (fun t' => matchCands rest t')

/-- Global regex replacement (`text.replace(re, repl)` with the `g`
flag): scan left to right, splice in the replacement at each leftmost
match, stepping one character past an empty match as the JS engine
does.  The fuel is set to `t.length + 1`, enough for the scan. -/
def regexReplaceGo (atoms : List RAtom) (repl : Str) : Nat → Str → Str
  | 0, t => t
  | fuel + 1, t =>
    match (matchCands atoms t).head? with
    | some rest =>
      if rest.length < t.length then
        repl ++ regexReplaceGo atoms repl fuel rest
      else
        match t with
        | [] => repl
        | d :: t' => repl ++ d :: regexReplaceGo atoms repl fuel t'
    | none =>
      match t with
      | [] => []
      | d :: t' => d :: regexReplaceGo atoms repl fuel t'

def regexReplaceAll (atoms : List RAtom) (repl : Str) (t : Str) : Str :=
  regexReplaceGo atoms repl (t.length + 1) t

/-- The atoms of a purely literal pattern. -/
def litSeq (p : Str) : List RAtom := p.map RAtom.lit

/-- Reference global replacement of a literal pattern, fuel-based like
the engine. -/
def replaceAllGo (p r : Str) : Nat → Str → Str
  | 0, t => t
  | fuel + 1, t =>
    if p ≠ [] ∧ p.isPrefixOf t then
      r ++ replaceAllGo p r fuel (t.drop p.length)
    else
      match t with
      | [] => []
      | d :: t' => d :: replaceAllGo p r fuel t'

def replaceAllL (p r t : Str) : Str := replaceAllGo p r (t.length + 1) t

/-! ## Document patcher (`replaceImageLinkInDocument`, enhanced version,
main plugin file) -/

/-- `escapeRegExp`: prefix every regex metacharacter with a backslash
(`replace(/[.*+?^$\x7b\x7d()|[\]\\]/g, '\\$&')`). -/
def escapeRegExp (s : Str) : Str :=
  s.foldr (fun c acc =>
    if c ∈ str ".*+?^$\x7b\x7d()|[]\\" then '\\' :: c :: acc else c :: acc) []

/-- `fileName.replace(/\.[^/.]+$/, '')`: strip a final extension — a dot
followed by one or more characters none of which is `/` or `.`. -/
def fileNameWithoutExtOf (fileName : Str) : Str :=
  let rev := fileName.reverse
  let extRev := rev.takeWhile (fun c => decide (c ≠ '.' ∧ c ≠ '/'))
  match rev.drop extRev.length with
  | '.' :: restRev => if extRev = [] then fileName else restRev.reverse
  | _ => fileName

/-- One entry of the pattern list `generateReplacementPatterns` builds
(the log-only `description` field is omitted). -/
structure ReplacePattern where
  pattern : Str
  replacement : Str
  isRegex : Bool
deriving DecidableEq, Repr

/-- `generateReplacementPatterns`: for an Obsidian `![[…]]` variant the
exact string and an escaped-regex form; otherwise the exact markdown
reference, the flexible-alt-text regex, and — when the variant differs
from the file name — the path-contains-filename regex (whose source ends
in an unmatched `)`, faithfully preserved). -/
def generateReplacementPatterns (pathVariant fileName newUrl : Str) :
    List ReplacePattern :=
  if (str "![[").isPrefixOf pathVariant ∧ (str "]]").isSuffixOf pathVariant then
    [⟨pathVariant,
      str "![" ++ fileNameWithoutExtOf fileName ++ str "](" ++ newUrl ++ str ")",
      false⟩,
     ⟨str "!\\[\\["
        ++ escapeRegExp ((pathVariant.drop 3).take (pathVariant.length - 5))
        ++ str "\\]\\]",
      str "![" ++ fileNameWithoutExtOf fileName ++ str "](" ++ newUrl ++ str ")",
      true⟩]
  else
    [⟨str "![" ++ fileName ++ str "](" ++ pathVariant ++ str ")",
      str "![" ++ fileName ++ str "](" ++ newUrl ++ str ")", false⟩,
     ⟨str "!\\[([^\\]]*)\\]\\(" ++ escapeRegExp pathVariant ++ str "\\)",
      str "![" ++ fileName ++ str "](" ++ newUrl ++ str ")", true⟩]
    ++ (if pathVariant ≠ fileName then
        [⟨str "!\\[([^\\]]*)\\]\\([^\\)]*" ++ escapeRegExp fileName
            ++ str "[^\\)]*)",
          str "![" ++ fileName ++ str "](" ++ newUrl ++ str ")", true⟩]
      else [])

/-- JS `Set` insertion order: append if not already present. -/
def addUnique (l : List Str) (x : Str) : List Str :=
  if x ∈ l then l else l ++ [x]

def dedupKeepFirst (l : List Str) : List Str := l.foldl addUnique []

def commonImageFolders : List Str :=
  [str "attachments", str "assets", str "images", str "files"]

/-- `generatePathVariants`: the file name, the full path, `./`-relative
forms, common attachment folders, and — when the path has directories —
every tail of the path, all deduplicated in insertion order. -/
def generatePathVariants (fileName filePath : Str) : List Str :=
  dedupKeepFirst
    ([fileName, filePath, str "./" ++ fileName, str "./" ++ filePath]
     ++ (commonImageFolders.map (fun folder =>
          [folder ++ '/' :: fileName, str "./" ++ folder ++ '/' :: fileName])).flatten
     ++ (if '/' ∈ filePath then
          ((List.range' 1 ((filePath.splitOn '/').length - 1)).map (fun i =>
            [List.intercalate (str "/") ((filePath.splitOn '/').drop i),
             str "./" ++ List.intercalate (str "/") ((filePath.splitOn '/').drop i)])).flatten
        else []))

/-- What one editor call leaves behind: the current document text, the
returned Boolean, and whether `setValue` was invoked. -/
structure PatchOutcome where
  text : Str
  returned : Bool
  setValueCalled : Bool
deriving DecidableEq, Repr

/-- One iteration of the inner pattern loop: regex patterns are compiled
(`new RegExp` — `error` models the thrown `SyntaxError`) and replace
globally, accepted when the text changed; string patterns are checked
with `includes` first and then replaced via a `g`-flagged escaped regex,
accepted unconditionally.  `some` is the `replaced = true; break`. -/
def tryPattern (newContent : Str) (pat : ReplacePattern) :
    Except Unit (Option Str) :=
  if pat.isRegex then
    match parseRegex pat.pattern with
    | none => .error ()
    | some atoms =>
      if regexReplaceAll atoms pat.replacement newContent ≠ newContent then
        .ok (some (regexReplaceAll atoms pat.replacement newContent))
      else .ok none
  else
    if jsIncludes newContent pat.pattern then
      match parseRegex (escapeRegExp pat.pattern) with
      | none => .error ()
      | some atoms => .ok (some (regexReplaceAll atoms pat.replacement newContent))
    else .ok none

def tryPatterns (newContent : Str) : List ReplacePattern → Except Unit (Option Str)
  | [] => .ok none
  | pat :: rest =>
    match tryPattern newContent pat with
    | .error e => .error e
    | .ok (some result) => .ok (some result)
    | .ok none => tryPatterns newContent rest

def tryVariants (content fileName newUrl : Str) :
    List Str → Except Unit (Option Str)
  | [] => .ok none
  | v :: vs =>
    match tryPatterns content (generateReplacementPatterns v fileName newUrl) with
    | .error e => .error e
    | .ok (some result) => .ok (some result)
    | .ok none => tryVariants content fileName newUrl vs

/-- `replaceImageLinkInDocument` (enhanced version): generate path
variants and their pattern lists, stop at the first pattern whose
substitution fires, call `setValue` and return `true` on success; return
`false` leaving the text untouched when nothing matched or when the
`try`/`catch` swallowed an exception (e.g. a regex `SyntaxError`). -/
def replaceImageLinkInDocument (content oldPath newUrl fileName : Str) :
    PatchOutcome :=
  match tryVariants content fileName newUrl (generatePathVariants fileName oldPath) with
  | .ok (some newContent) => ⟨newContent, true, true⟩
  | .ok none => ⟨content, false, false⟩
  | .error _ => ⟨content, false, false⟩

/-- Does a pattern's substitution find anything to change: a compiled
regex whose global replacement alters the text, or a string pattern that
occurs in the text (an uncompilable regex finds nothing). -/
def patternFindsMatch (content : Str) (pat : ReplacePattern) : Bool :=
  if pat.isRegex then
    match parseRegex pat.pattern with
    | none => false
    | some atoms => decide (regexReplaceAll atoms pat.replacement content ≠ content)
  else jsIncludes content pat.pattern

/-! ## Properties of literal global replacement -/

theorem jsIncludes_iff (t p : Str) : jsIncludes t p = true ↔ p <:+: t := by
  induction t with
  | nil =>
    constructor
    · intro h
      have hp : p <+: [] :=
        List.isPrefixOf_iff_prefix.mp (by simpa [jsIncludes] using h)
      rw [List.prefix_nil.mp hp]
    · intro h
      have hnil : p = [] := List.infix_nil.mp h
      simp [jsIncludes, hnil, List.isPrefixOf]
  | cons d t' ih =>
    simp only [jsIncludes, Bool.or_eq_true]
    rw [ List.isPrefixOf_iff_prefix, ih, List.infix_cons_iff]

theorem prefix_append_cases (p : Str) (B : Str) :
    ∀ A, p <+: A ++ B → p <+: A ∨ (A <+: p ∧ p.drop A.length <+: B) := by
  intro A
  induction A generalizing p with
  | nil =>
    intro h
    exact Or.inr ⟨List.nil_prefix, h⟩
  | cons a A' ih =>
    intro h
    cases p with
    | nil => exact Or.inl List.nil_prefix
    | cons c p' =>
      rw [List.cons_append, List.cons_prefix_cons] at h
      obtain ⟨hc, hp'⟩ := h
      rcases ih p' hp' with h1 | ⟨h1, h2⟩
      · exact Or.inl (List.cons_prefix_cons.mpr ⟨hc, h1⟩)
      · refine Or.inr ⟨List.cons_prefix_cons.mpr ⟨hc.symm, h1⟩, ?_⟩
        simpa using h2

theorem infix_append_cases (p B : Str) :
    ∀ A, p <:+: A ++ B →
      p <:+: A ∨ p <:+: B ∨
        ∃ k, 0 < k ∧ k < p.length ∧ p.take k <:+ A ∧ p.drop k <+: B := by
  intro A
  induction A with
  | nil =>
    intro h
    exact Or.inr (Or.inl h)
  | cons a A' ih =>
    intro h
    rw [List.cons_append, List.infix_cons_iff] at h
    rcases h with h | h
    · rw [← List.cons_append] at h
      rcases prefix_append_cases p B (a :: A') h with h1 | ⟨h1, h2⟩
      · exact Or.inl h1.isInfix
      · by_cases hlen : p.length ≤ (a :: A').length
        · have : p = a :: A' := (List.IsPrefix.eq_of_length_le h1 hlen).symm
          exact Or.inl (this ▸ List.infix_rfl)
        · push_neg at hlen
          refine Or.inr (Or.inr ⟨(a :: A').length, by simp, hlen, ?_, h2⟩)
          have : p.take (a :: A').length = a :: A' :=
            (List.prefix_iff_eq_take.mp h1).symm
          rw [this]
    · rcases ih h with h1 | h1 | ⟨k, hk0, hkp, hsuf, hpre⟩
      · exact Or.inl (List.infix_cons h1)
      · exact Or.inr (Or.inl h1)
      · exact Or.inr (Or.inr ⟨k, hk0, hkp, hsuf.trans (List.suffix_cons a A'), hpre⟩)

theorem prefix_of_append_short (p A B : Str) (h : p <+: A ++ B)
    (hl : p.length ≤ A.length) : p <+: A := by
  rcases prefix_append_cases p B A h with h1 | ⟨h1, _⟩
  · exact h1
  · rw [List.IsPrefix.eq_of_length_le h1 hl]

/-- The side conditions on (pattern, replacement) under which a global
literal replacement removes every occurrence of the pattern: non-empty
pattern, the replacement neither contains the pattern nor overlaps it at
a junction, and the replacement is at least as long as the pattern. -/
def SafeRepl (p r : Str) : Prop :=
  p ≠ [] ∧ jsIncludes r p = false ∧ p.length ≤ r.length ∧
  (∀ k, k < p.length → 0 < k → r.take k ≠ p.drop (p.length - k)) ∧
  (∀ k, k < p.length → 0 < k → r.drop (r.length - k) ≠ p.take k)

instance (p r : Str) : Decidable (SafeRepl p r) := by
  unfold SafeRepl
  infer_instance

theorem replaceAllGo_safe (p r : Str) (hs : SafeRepl p r) :
    ∀ fuel t, t.length < fuel →
      (¬ p <:+: replaceAllGo p r fuel t) ∧
      (∀ j, 0 < j → j < p.length →
        p.drop j <+: replaceAllGo p r fuel t → p.drop j <+: t) := by
  obtain ⟨hp, hnr, hlen, h3, h4⟩ := hs
  have hnr' : ¬ p <:+: r := by
    intro hcontr
    rw [← jsIncludes_iff] at hcontr
    rw [hcontr] at hnr
    exact Bool.true_eq_false.mp hnr
  intro fuel
  induction fuel with
  | zero =>
    intro t ht
    exact absurd ht (Nat.not_lt_zero _)
  | succ n ih =>
    intro t ht
    by_cases hpre : p ≠ [] ∧ p.isPrefixOf t
    · have hpfx : p <+: t := List.isPrefixOf_iff_prefix.mp hpre.2
      have htn : t ≠ [] := by
        intro hnil
        rw [hnil, List.prefix_nil] at hpfx
        exact hp hpfx
      have hplen : 1 ≤ p.length := by
        cases p with
        | nil => exact absurd rfl hp
        | cons _ _ => simp
      have htlen : p.length ≤ t.length := hpfx.length_le
      have hdrop : (t.drop p.length).length < n := by
        rw [List.length_drop]
        omega
      have hR := ih (t.drop p.length) hdrop
      have hgo : replaceAllGo p r (n + 1) t
          = r ++ replaceAllGo p r n (t.drop p.length) := by
        simp only [replaceAllGo, if_pos hpre]
      constructor
      · rw [hgo]
        intro hcontr
        rcases infix_append_cases p (replaceAllGo p r n (t.drop p.length)) r hcontr with
          h1 | h1 | ⟨k, hk0, hkp, hsuf, hpre2⟩
        · exact hnr' h1
        · exact hR.1 h1
        · have hkr : (p.take k).length = k := by
            rw [List.length_take]
            omega
          have : p.take k = r.drop (r.length - k) := by
            have := List.suffix_iff_eq_drop.mp hsuf
            rwa [hkr] at this
          exact h4 k hkp hk0 this.symm
      · intro j hj0 hjp hq
        rw [hgo] at hq
        have hqlen : (p.drop j).length ≤ r.length := by
          rw [List.length_drop]
          omega
        have hqr : p.drop j <+: r := prefix_of_append_short _ r _ hq hqlen
        exfalso
        have hqtake : p.drop j = r.take (p.drop j).length :=
          List.prefix_iff_eq_take.mp hqr
        have hjlen : (p.drop j).length = p.length - j := List.length_drop j p
        rw [hjlen] at hqtake
        have hjj : p.length - (p.length - j) = j := by omega
        refine h3 (p.length - j) (by omega) (by omega) ?_
        rw [hjj]
        exact hqtake.symm
    · cases t with
      | nil =>
        have hgo : replaceAllGo p r (n + 1) [] = [] := by
          simp only [replaceAllGo, if_neg hpre]
        rw [hgo]
        constructor
        · intro hcontr
          exact hp (List.infix_nil.mp hcontr)
        · intro j _ _ hq
          exact hq
      | cons d t' =>
        have hgo : replaceAllGo p r (n + 1) (d :: t')
            = d :: replaceAllGo p r n t' := by
          simp only [replaceAllGo, if_neg hpre]
        have hnpfx : ¬ p <+: d :: t' := by
          intro hcontr
          exact hpre ⟨hp, List.isPrefixOf_iff_prefix.mpr hcontr⟩
        have ht' : t'.length < n := by
          simp only [List.length_cons] at ht
          omega
        have hR := ih t' ht'
        rw [hgo]
        constructor
        · intro hcontr
          rw [List.infix_cons_iff] at hcontr
          rcases hcontr with hcontr | hcontr
          · cases p with
            | nil => exact hp rfl
            | cons c p₂ =>
              rw [List.cons_prefix_cons] at hcontr
              obtain ⟨hcd, hp₂⟩ := hcontr
              by_cases h1 : p₂ = []
              · apply hnpfx
                rw [h1, hcd]
                rw [List.cons_prefix_cons]
                exact ⟨rfl, List.nil_prefix⟩
              · have hlen2 : 1 < (c :: p₂).length := by
                  cases p₂ with
                  | nil => exact absurd rfl h1
                  | cons _ _ => simp
                have hd2 : (c :: p₂).drop 1 = p₂ := rfl
                have := hR.2 1 (by omega) hlen2 (hd2 ▸ hp₂)
                rw [hd2] at this
                apply hnpfx
                rw [hcd]
                exact List.cons_prefix_cons.mpr ⟨rfl, this⟩
          · exact hR.1 hcontr
        · intro j hj0 hjp hq
          cases hdj : p.drop j with
          | nil =>
            exact List.nil_prefix
          | cons e q₂ =>
            rw [hdj] at hq
            rw [List.cons_prefix_cons] at hq
            obtain ⟨hed, hq₂⟩ := hq
            have hq₂eq : q₂ = p.drop (j + 1) := by
              have hdd : (p.drop j).drop 1 = p.drop (j + 1) := by
                rw [List.drop_drop]
              rw [hdj] at hdd
              simpa using hdd
            by_cases hend : j + 1 < p.length
            · have hstep := hR.2 (j + 1) (by omega) hend (hq₂eq ▸ hq₂)
              rw [List.cons_prefix_cons]
              exact ⟨hed, hq₂eq ▸ hstep⟩
            · have hq₂nil : q₂ = [] := by
                rw [hq₂eq]
                apply List.drop_eq_nil_of_le
                omega
              rw [hq₂nil, List.cons_prefix_cons]
              exact ⟨hed, List.nil_prefix⟩

theorem replaceAllGo_contains (p r : Str) (hp : p ≠ []) :
    ∀ fuel t, t.length < fuel → p <:+: t →
      r <:+: replaceAllGo p r fuel t := by
  intro fuel
  induction fuel with
  | zero =>
    intro t ht
    exact absurd ht (Nat.not_lt_zero _)
  | succ n ih =>
    intro t ht hocc
    by_cases hpre : p ≠ [] ∧ p.isPrefixOf t
    · have hgo : replaceAllGo p r (n + 1) t
          = r ++ replaceAllGo p r n (t.drop p.length) := by
        simp only [replaceAllGo, if_pos hpre]
      rw [hgo]
      exact ⟨[], replaceAllGo p r n (t.drop p.length), rfl⟩
    · cases t with
      | nil => exact absurd (List.infix_nil.mp hocc) hp
      | cons d t' =>
        have hgo : replaceAllGo p r (n + 1) (d :: t')
            = d :: replaceAllGo p r n t' := by
          simp only [replaceAllGo, if_neg hpre]
        rw [hgo]
        rw [List.infix_cons_iff] at hocc
        rcases hocc with hocc | hocc
        · exact absurd ⟨hp, List.isPrefixOf_iff_prefix.mpr hocc⟩ hpre
        · have ht' : t'.length < n := by
            simp only [List.length_cons] at ht
            omega
          exact List.infix_cons (ih t' ht' hocc)

/-! ## The engine on literal patterns -/

theorem matchCands_litSeq (p : Str) :
    ∀ t, matchCands (litSeq p) t
      = if p.isPrefixOf t then [t.drop p.length] else [] := by
  induction p with
  | nil =>
    intro t
    simp [litSeq, matchCands, List.isPrefixOf]
  | cons c p' ih =>
    intro t
    cases t with
    | nil =>
      simp [litSeq, matchCands, List.isPrefixOf]
    | cons d t' =>
      simp only [litSeq, List.map_cons, matchCands]
      by_cases hdc : d = c
      · rw [if_pos hdc]
        have : (c :: p').isPrefixOf (d :: t') = p'.isPrefixOf t' := by
          simp [List.isPrefixOf, hdc]
        rw [this]
        have ihs := ih t'
        rw [show litSeq p' = p'.map RAtom.lit from rfl] at ihs
        rw [ihs]
        by_cases hpp : p'.isPrefixOf t'
        · rw [if_pos hpp, if_pos hpp]
          simp
        · rw [if_neg hpp, if_neg hpp]
      · rw [if_neg hdc]
        have : (c :: p').isPrefixOf (d :: t') = false := by
          simp [List.isPrefixOf]
          intro hcontr
          exact absurd hcontr.symm hdc
        rw [this]
        simp

theorem regexReplaceGo_litSeq (p r : Str) (hp : p ≠ []) :
    ∀ fuel t, regexReplaceGo (litSeq p) r fuel t = replaceAllGo p r fuel t := by
  intro fuel
  induction fuel with
  | zero =>
    intro t
    rfl
  | succ n ih =>
    intro t
    by_cases hpre : p.isPrefixOf t
    · have hpfx : p <+: t := List.isPrefixOf_iff_prefix.mp hpre
      have hplen : 1 ≤ p.length := by
        cases p with
        | nil => exact absurd rfl hp
        | cons _ _ => simp
      have htlen : p.length ≤ t.length := hpfx.length_le
      have hlt : (t.drop p.length).length < t.length := by
        rw [List.length_drop]
        omega
      have hcand : (matchCands (litSeq p) t).head? = some (t.drop p.length) := by
        rw [matchCands_litSeq p t, if_pos hpre]
        rfl
      have hL : regexReplaceGo (litSeq p) r (n + 1) t
          = r ++ regexReplaceGo (litSeq p) r n (t.drop p.length) := by
        simp only [regexReplaceGo, hcand, if_pos hlt]
      have hRR : replaceAllGo p r (n + 1) t
          = r ++ replaceAllGo p r n (t.drop p.length) := by
        simp only [replaceAllGo, if_pos (And.intro hp hpre)]
      rw [hL, hRR, ih]
    · have hcand : (matchCands (litSeq p) t).head? = none := by
        rw [matchCands_litSeq p t, if_neg hpre]
        rfl
      have hnpre : ¬ (p ≠ [] ∧ p.isPrefixOf t) := by
        intro hcontr
        exact hpre hcontr.2
      cases t with
      | nil =>
        have hL : regexReplaceGo (litSeq p) r (n + 1) [] = [] := by
          simp only [regexReplaceGo]
          rw [hcand]
        have hRR : replaceAllGo p r (n + 1) [] = [] := by
          simp only [replaceAllGo, if_neg hnpre]
        rw [hL, hRR]
      | cons d t' =>
        have hL : regexReplaceGo (litSeq p) r (n + 1) (d :: t')
            = d :: regexReplaceGo (litSeq p) r n t' := by
          simp only [regexReplaceGo]
          rw [hcand]
        have hRR : replaceAllGo p r (n + 1) (d :: t')
            = d :: replaceAllGo p r n t' := by
          simp only [replaceAllGo, if_neg hnpre]
        rw [hL, hRR, ih]

theorem regexReplaceAll_litSeq (p r t : Str) (hp : p ≠ []) :
    regexReplaceAll (litSeq p) r t = replaceAllL p r t :=
  regexReplaceGo_litSeq p r hp (t.length + 1) t

/-! ## Theorems: claims C3, C8 -/

theorem tryPatterns_of_no_match (content : Str) :
    ∀ pats, (∀ pat ∈ pats, patternFindsMatch content pat = false) →
      tryPatterns content pats = .ok none ∨
        tryPatterns content pats = .error () := by
  intro pats
  induction pats with
  | nil =>
    intro _
    exact Or.inl rfl
  | cons pat rest ih =>
    intro h
    have hpat := h pat (List.mem_cons_self pat rest)
    have hrest := fun q hq => h q (List.mem_cons_of_mem pat hq)
    cases hr : pat.isRegex
    · have hni : jsIncludes content pat.pattern = false := by
        unfold patternFindsMatch at hpat
        simpa [hr] using hpat
      have htp : tryPattern content pat = .ok none := by
        unfold tryPattern
        simp [hr, hni]
      simp only [tryPatterns, htp]
      exact ih hrest
    · cases hp : parseRegex pat.pattern with
      | none =>
        have htp : tryPattern content pat = .error () := by
          unfold tryPattern
          simp [hr, hp]
        simp only [tryPatterns, htp]
        exact Or.inr trivial
      | some atoms =>
        have heq : regexReplaceAll atoms pat.replacement content = content := by
          unfold patternFindsMatch at hpat
          simpa [hr, hp] using hpat
        have htp : tryPattern content pat = .ok none := by
          unfold tryPattern
          simp [hr, hp, heq]
        simp only [tryPatterns, htp]
        exact ih hrest

theorem tryVariants_of_no_match (content fileName newUrl : Str) :
    ∀ vs, (∀ v ∈ vs, ∀ pat ∈ generateReplacementPatterns v fileName newUrl,
        patternFindsMatch content pat = false) →
      tryVariants content fileName newUrl vs = .ok none ∨
        tryVariants content fileName newUrl vs = .error () := by
  intro vs
  induction vs with
  | nil =>
    intro _
    exact Or.inl rfl
  | cons v vs' ih =>
    intro h
    rcases tryPatterns_of_no_match content
        (generateReplacementPatterns v fileName newUrl)
        (h v (List.mem_cons_self v vs')) with h1 | h1
    · simp only [tryVariants, h1]
      exact ih (fun w hw => h w (List.mem_cons_of_mem v hw))
    · simp only [tryVariants, h1]
      exact Or.inr trivial

/-- Claim C3: when none of the patcher's matching patterns finds an
occurrence of the placeholder reference in the document — whether the
loop runs to completion or aborts on the malformed third pattern's
`SyntaxError` — `replaceImageLinkInDocument` returns `false`, the text is
byte-for-byte unchanged and `setValue` is never invoked. -/
theorem replaceImageLink_no_match (content oldPath newUrl fileName : Str)
    (h : ∀ v ∈ generatePathVariants fileName oldPath,
      ∀ pat ∈ generateReplacementPatterns v fileName newUrl,
        patternFindsMatch content pat = false) :
    replaceImageLinkInDocument content oldPath newUrl fileName
      = ⟨content, false, false⟩ := by
  rcases tryVariants_of_no_match content fileName newUrl
      (generatePathVariants fileName oldPath) h with h1 | h1 <;>
    · unfold replaceImageLinkInDocument
      rw [h1]

/-- Witness for C3: a document with no image reference at all is left
untouched and the call reports `false` without a `setValue`. -/
theorem replaceImageLink_no_match_witness :
    replaceImageLinkInDocument (str "hello world") (str "foo.png")
        (str "https://x/y.png") (str "foo.png")
      = ⟨str "hello world", false, false⟩ :=
  replaceImageLink_no_match (str "hello world") (str "foo.png")
    (str "https://x/y.png") (str "foo.png") (by decide)

theorem tryPatterns_string_hit (content : Str) (pat : ReplacePattern)
    (rest : List ReplacePattern) (hr : pat.isRegex = false)
    (hinc : jsIncludes content pat.pattern = true) (atoms : List RAtom)
    (hp : parseRegex (escapeRegExp pat.pattern) = some atoms) :
    tryPatterns content (pat :: rest)
      = .ok (some (regexReplaceAll atoms pat.replacement content)) := by
  have htp : tryPattern content pat
      = .ok (some (regexReplaceAll atoms pat.replacement content)) := by
    unfold tryPattern
    simp [hr, hinc, hp]
  simp only [tryPatterns, htp]

theorem tryVariants_head_hit (content fileName newUrl : Str) (v : Str)
    (vs : List Str) (result : Str)
    (h : tryPatterns content (generateReplacementPatterns v fileName newUrl)
      = .ok (some result)) :
    tryVariants content fileName newUrl (v :: vs) = .ok (some result) := by
  simp only [tryVariants, h]

/-- Evaluation of the patcher on the C8 scenario: the first variant is
the file name itself and its first pattern is the exact reference, which
occurs by hypothesis, so the whole call reduces to the global literal
replacement of the reference. -/
theorem patchFoo_eval (content : Str)
    (hinc : jsIncludes content (str "![foo.png](foo.png)") = true) :
    replaceImageLinkInDocument content (str "foo.png") (str "https://x/y.png")
        (str "foo.png")
      = ⟨replaceAllL (str "![foo.png](foo.png)")
            (str "![foo.png](https://x/y.png)") content, true, true⟩ := by
  have hv : generatePathVariants (str "foo.png") (str "foo.png")
      = str "foo.png" ::
        [str "./foo.png", str "attachments/foo.png", str "./attachments/foo.png",
         str "assets/foo.png", str "./assets/foo.png", str "images/foo.png",
         str "./images/foo.png", str "files/foo.png", str "./files/foo.png"] := by
    decide
  have hgen : generateReplacementPatterns (str "foo.png") (str "foo.png")
        (str "https://x/y.png")
      = (⟨str "![foo.png](foo.png)", str "![foo.png](https://x/y.png)", false⟩
          : ReplacePattern) ::
        [⟨str "!\\[([^\\]]*)\\]\\(foo\\.png\\)",
          str "![foo.png](https://x/y.png)", true⟩] := by
    decide
  have hparse : parseRegex (escapeRegExp (str "![foo.png](foo.png)"))
      = some (litSeq (str "![foo.png](foo.png)")) := by decide
  have ht := tryPatterns_string_hit content
    ⟨str "![foo.png](foo.png)", str "![foo.png](https://x/y.png)", false⟩
    [⟨str "!\\[([^\\]]*)\\]\\(foo\\.png\\)",
      str "![foo.png](https://x/y.png)", true⟩]
    rfl hinc (litSeq (str "![foo.png](foo.png)")) hparse
  have ht' : tryPatterns content
      (generateReplacementPatterns (str "foo.png") (str "foo.png")
        (str "https://x/y.png"))
      = .ok (some (regexReplaceAll (litSeq (str "![foo.png](foo.png)"))
          (str "![foo.png](https://x/y.png)") content)) := by
    rw [hgen]
    exact ht
  unfold replaceImageLinkInDocument
  rw [hv, tryVariants_head_hit content (str "foo.png") (str "https://x/y.png")
    (str "foo.png") _ _ ht']
  rw [regexReplaceAll_litSeq (str "![foo.png](foo.png)")
    (str "![foo.png](https://x/y.png)") content (by decide)]

/-- Claim C8: for every document containing `![foo.png](foo.png)`,
committing with original reference `foo.png` and remote URL
`https://x/y.png` reports success, and the resulting text contains
`![foo.png](https://x/y.png)` and no longer contains the original
reference anywhere. -/
theorem commitRemote_replaces (content : Str)
    (h : (str "![foo.png](foo.png)") <:+: content) :
    (replaceImageLinkInDocument content (str "foo.png") (str "https://x/y.png")
        (str "foo.png")).returned = true ∧
    (str "![foo.png](https://x/y.png)") <:+:
      (replaceImageLinkInDocument content (str "foo.png") (str "https://x/y.png")
        (str "foo.png")).text ∧
    ¬ (str "![foo.png](foo.png)") <:+:
      (replaceImageLinkInDocument content (str "foo.png") (str "https://x/y.png")
        (str "foo.png")).text := by
  have hinc : jsIncludes content (str "![foo.png](foo.png)") = true :=
    (jsIncludes_iff content (str "![foo.png](foo.png)")).mpr h
  rw [patchFoo_eval content hinc]
  refine ⟨rfl, ?_, ?_⟩
  · exact replaceAllGo_contains (str "![foo.png](foo.png)")
      (str "![foo.png](https://x/y.png)") (by decide) (content.length + 1)
      content (Nat.lt_succ_self _) h
  · exact (replaceAllGo_safe (str "![foo.png](foo.png)")
      (str "![foo.png](https://x/y.png)") (by decide) (content.length + 1)
      content (Nat.lt_succ_self _)).1

/-- Witness for C8 at a concrete document. -/
theorem commitRemote_replaces_witness :
    (replaceImageLinkInDocument (str "a ![foo.png](foo.png) b")
        (str "foo.png") (str "https://x/y.png") (str "foo.png")).returned
      = true :=
  (commitRemote_replaces (str "a ![foo.png](foo.png) b") (by decide)).1

end UPic
